import Mathlib

/-!
# Verification of the voiceaiagent MCP core

Shallow embedding of the argument-normalization engine
(`src/lib/mcp-normalizer.ts`), the schema normalizer
(`src/app/api/mcp/tools/route.ts`, `src/unnamed/part_004`), the SSE
stream readers and HTTP handlers of the execute/tools routes
(`src/unnamed/part_001` … `part_004`), the response unwrapper, and the
persistent-session client (`src/lib/mcp-client.ts`).

JavaScript runtime values are modelled by the inductive type `Value`
(JSON values: JS `undefined` is represented by `Option.none` at the
points where the source distinguishes it, since `undefined`-valued
object properties are dropped by `JSON.stringify`/`NextResponse.json`
before they become observable).  JS numbers are modelled over `Int`;
no claim in this development depends on non-integral numerics.
-/

set_option maxRecDepth 4096

namespace VoiceAI

/-- Model of a JavaScript/JSON runtime value. -/
inductive Value where
  | null : Value
  | bool (b : Bool) : Value
  | num (n : Int) : Value
  | str (s : String) : Value
  | arr (elems : List Value) : Value
  | obj (fields : List (String × Value)) : Value
  deriving Repr

mutual
/-- Structural equality test on values (JSON deep equality). -/
def Value.beq : Value → Value → Bool
  | .null, .null => true
  | .bool a, .bool b => a == b
  | .num a, .num b => a == b
  | .str a, .str b => a == b
  | .arr a, .arr b => Value.beqList a b
  | .obj a, .obj b => Value.beqFields a b
  | _, _ => false

/-- Structural equality on lists of values. -/
def Value.beqList : List Value → List Value → Bool
  | [], [] => true
  | a :: as, b :: bs => Value.beq a b && Value.beqList as bs
  | _, _ => false

/-- Structural equality on object field lists. -/
def Value.beqFields : List (String × Value) → List (String × Value) → Bool
  | [], [] => true
  | (k, v) :: as, (l, w) :: bs => k == l && Value.beq v w && Value.beqFields as bs
  | _, _ => false
end

mutual
theorem Value.eq_of_beq : ∀ {a b : Value}, Value.beq a b = true → a = b
  | .null, .null, _ => rfl
  | .bool _, .bool _, h => by
    simp only [Value.beq] at h; exact congrArg Value.bool (beq_iff_eq.mp h)
  | .num _, .num _, h => by
    simp only [Value.beq] at h; exact congrArg Value.num (beq_iff_eq.mp h)
  | .str _, .str _, h => by
    simp only [Value.beq] at h; exact congrArg Value.str (beq_iff_eq.mp h)
  | .arr a, .arr b, h => by
    simp only [Value.beq] at h
    exact congrArg Value.arr (Value.eqList_of_beq h)
  | .obj a, .obj b, h => by
    simp only [Value.beq] at h
    exact congrArg Value.obj (Value.eqFields_of_beq h)

theorem Value.eqList_of_beq : ∀ {a b : List Value}, Value.beqList a b = true → a = b
  | [], [], _ => rfl
  | x :: xs, y :: ys, h => by
    simp only [Value.beqList, Bool.and_eq_true] at h
    have h1 := Value.eq_of_beq h.1
    have h2 := Value.eqList_of_beq h.2
    rw [h1, h2]

theorem Value.eqFields_of_beq :
    ∀ {a b : List (String × Value)}, Value.beqFields a b = true → a = b
  | [], [], _ => rfl
  | (k, v) :: xs, (l, w) :: ys, h => by
    simp only [Value.beqFields, Bool.and_eq_true] at h
    have h1 : k = l := beq_iff_eq.mp h.1.1
    have h2 := Value.eq_of_beq h.1.2
    have h3 := Value.eqFields_of_beq h.2
    rw [h1, h2, h3]
end

mutual
theorem Value.beq_refl : ∀ (a : Value), Value.beq a a = true
  | .null => rfl
  | .bool b => by simp [Value.beq]
  | .num n => by simp [Value.beq]
  | .str s => by simp [Value.beq]
  | .arr a => by simp only [Value.beq]; exact Value.beqList_refl a
  | .obj a => by simp only [Value.beq]; exact Value.beqFields_refl a

theorem Value.beqList_refl : ∀ (a : List Value), Value.beqList a a = true
  | [] => rfl
  | x :: xs => by
    simp only [Value.beqList, Bool.and_eq_true]
    exact ⟨Value.beq_refl x, Value.beqList_refl xs⟩

theorem Value.beqFields_refl : ∀ (a : List (String × Value)), Value.beqFields a a = true
  | [] => rfl
  | (k, v) :: xs => by
    simp only [Value.beqFields, Bool.and_eq_true]
    exact ⟨⟨by simp, Value.beq_refl v⟩, Value.beqFields_refl xs⟩
end

instance : DecidableEq Value := fun a b =>
  if h : Value.beq a b = true then
    .isTrue (Value.eq_of_beq h)
  else
    .isFalse (fun he => h (he ▸ Value.beq_refl a))

namespace Value

/-- JS truthiness: `null`, `false`, `0`, and `""` are falsy, everything
else (objects, arrays, non-empty strings, non-zero numbers) is truthy.
`undefined` is handled by the `Option` layer at each use site. -/
def truthy : Value → Bool
  | .null => false
  | .bool b => b
  | .num n => n != 0
  | .str s => s ≠ ""
  | .arr _ => true
  | .obj _ => true

/-- Member access `v.k`: `some` when `v` is an object carrying field `k`
(JS object keys are unique, first binding returned), `none` (JS
`undefined`) otherwise — in particular on non-objects and `null`,
matching optional chaining `v?.k`. -/
def getField : Value → String → Option Value
  | .obj fields, k => (fields.find? (fun f => f.1 == k)).map (·.2)
  | _, _ => none

/-- Optional chaining along a path, `v?.k₁?.k₂…`. -/
def dig (v : Value) : List String → Option Value
  | [] => some v
  | k :: ks =>
    match v.getField k with
    | some w => w.dig ks
    | none => none

end Value

/-! ## Character-level string primitives

The JS string builtins (`toLowerCase`, `trim`, `split`, …) are modelled
over the character list of the string, so that every definition in this
file reduces inside the kernel.  All of them operate on the ASCII
fragment exercised by this codebase. -/

/-- ASCII lowercase (the fragment of `String.prototype.toLowerCase`
relevant here; the regexes applied afterwards are ASCII classes). -/
def charLower (c : Char) : Char :=
  if 'A' ≤ c && c ≤ 'Z' then Char.ofNat (c.toNat + 32) else c

/-- Lowercase a string. -/
def lowerStr (s : String) : String :=
  String.mk (s.data.map charLower)

/-- Whitespace test (ASCII fragment of the JS `\s` class / `trim`). -/
def isWsChar (c : Char) : Bool :=
  c = ' ' || c = '\t' || c = '\n' || c = '\r'

/-- `String.prototype.trim` on the character list. -/
def listTrim (cs : List Char) : List Char :=
  ((cs.dropWhile isWsChar).reverse.dropWhile isWsChar).reverse

/-- `String.prototype.trim`. -/
def strTrim (s : String) : String :=
  String.mk (listTrim s.data)

/-- JS `String.prototype.split(sep)` for a one-character separator:
always returns one more segment than there are separators, so empty
segments (and a leading/trailing empty segment) are preserved. -/
def splitChar (sep : Char) : List Char → List (List Char)
  | [] => [[]]
  | c :: rest =>
    let r := splitChar sep rest
    if c = sep then [] :: r
    else
      match r with
      | h :: t => (c :: h) :: t
      | [] => [[c]]

/-- Split at every character satisfying `p` (used with a whitespace
predicate: composed with an empty-segment filter this equals the JS
`split(/\s+/).filter(Boolean)`). -/
def splitPChar (p : Char → Bool) : List Char → List (List Char)
  | [] => [[]]
  | c :: rest =>
    let r := splitPChar p rest
    if p c then [] :: r
    else
      match r with
      | h :: t => (c :: h) :: t
      | [] => [[c]]

/-- Prepend `pre` onto the first segment of a split result (used to
state how `splitChar` acts on an appended string). -/
def consHead (pre : List Char) : List (List Char) → List (List Char)
  | [] => [pre]
  | h :: t => (pre ++ h) :: t

/-- Digit run to number (the integer fragment of JS numeric parsing). -/
def digitsToNat (ds : List Char) : Nat :=
  ds.foldl (fun n c => 10 * n + (c.toNat - '0'.toNat)) 0

/-- First-occurrence deduplication, as JS `Set` insertion. -/
def dedupFirst : List String → List String :=
  go []
where
  /-- Tail worker carrying the set of already-seen tokens. -/
  go (seen : List String) : List String → List String
    | [] => []
    | x :: xs => if seen.contains x then go seen xs else x :: go (x :: seen) xs

/-! ## Argument normalizer (`src/lib/mcp-normalizer.ts`) -/

/-- `normalizeFieldName` (mcp-normalizer.ts:39-41): lowercase and strip
every character outside `[a-z0-9]` (the regex class applies after
lowering). -/
def normalizeFieldName (name : String) : String :=
  String.mk (((lowerStr name).data).filter
    (fun c => (('a' ≤ c && c ≤ 'z') || ('0' ≤ c && c ≤ '9'))))

/-- The camel-boundary pass of `tokenize`: the global regex replace
`([a-z])([A-Z]) → "$1 $2"` inserts a space between a lowercase letter
and the uppercase letter that follows it. -/
def insertCamelSpaces : List Char → List Char
  | a :: b :: rest =>
    if a.isLower && b.isUpper then a :: ' ' :: insertCamelSpaces (b :: rest)
    else a :: insertCamelSpaces (b :: rest)
  | l => l

/-- Split on runs of whitespace (the `split(/\s+/)`), dropping empty
segments (the `.filter(Boolean)`). -/
def splitWsTokens (cs : List Char) : List String :=
  ((splitPChar isWsChar cs).filter (· ≠ [])).map (fun l => String.mk l)

/-- `tokenize` (mcp-normalizer.ts:46-53): map `-`/`_` to spaces, break
camel-case boundaries, lowercase, split on whitespace, keep non-empty
tokens. -/
def tokenize (name : String) : List String :=
  let cleaned := name.toList.map (fun c => if c = '-' || c = '_' then ' ' else c)
  splitWsTokens ((insertCamelSpaces cleaned).map charLower)

/-- Exact fraction representing a Jaccard score.  The source stores the
score as a JS double; token sets are tiny, so the correctly-rounded
double comparisons against `0.6` and between two scores coincide with
the exact rational comparisons `Score.ge06` / `Score.gt`. -/
structure Score where
  num : Nat
  den : Nat
  deriving DecidableEq, Repr

/-- `score >= 0.6` as an exact rational comparison (`0.6 = 3/5`). -/
def Score.ge06 (s : Score) : Bool :=
  5 * s.num ≥ 3 * s.den

/-- `score > other` as an exact rational comparison. -/
def Score.gt (s t : Score) : Bool :=
  s.num * t.den > t.num * s.den

/-- `tokenSimilarity` (mcp-normalizer.ts:58-69): Jaccard similarity of
the two token sets; `⟨0, 1⟩` when either set is empty. -/
def tokenSimilarity (a b : String) : Score :=
  let tokensA := dedupFirst (tokenize a)
  let tokensB := dedupFirst (tokenize b)
  if tokensA.length = 0 || tokensB.length = 0 then ⟨0, 1⟩
  else
    let intersection := (tokensA.filter (fun t => tokensB.contains t)).length
    let union := tokensA.length + tokensB.length - intersection
    ⟨intersection, union⟩

/-- `globalConceptSynonyms` (mcp-normalizer.ts:75-84), in source order. -/
def globalConceptSynonyms : List (String × List String) :=
  [ ("recipient_email", ["to", "email", "recipient", "recipient_email", "mail_to", "send_to"]),
    ("subject", ["subject", "title", "topic", "headline"]),
    ("body", ["body", "message", "msg", "content", "text"]),
    ("query", ["q", "query", "search", "keyword", "term"]),
    ("url", ["url", "link", "href", "address", "endpoint"]),
    ("amount", ["amount", "value", "total", "price"]),
    ("date", ["date", "when", "day"]),
    ("phone", ["phone", "phone_number", "mobile", "cell"]) ]

/-- Scan for `pat` occurring contiguously anywhere in `l`. -/
def infixScan (pat : List Char) : List Char → Bool
  | [] => pat.isEmpty
  | c :: rest => pat.isPrefixOf (c :: rest) || infixScan pat rest

/-- JS `String.prototype.includes`. -/
def strIncludes (s pat : String) : Bool :=
  infixScan pat.toList s.toList

/-- `guessConceptForSchemaKey` (mcp-normalizer.ts:90-102). -/
def guessConceptForSchemaKey (schemaKey : String) : Option String :=
  let key := lowerStr schemaKey
  if strIncludes key "email" then some "recipient_email"
  else if key == "to" then some "recipient_email"
  else if strIncludes key "subject" || strIncludes key "title" then some "subject"
  else if strIncludes key "body" || strIncludes key "message" || strIncludes key "content" then
    some "body"
  else if strIncludes key "query" || strIncludes key "search" then some "query"
  else if strIncludes key "url" || strIncludes key "link" then some "url"
  else if strIncludes key "amount" || strIncludes key "total" || strIncludes key "price" then
    some "amount"
  else if strIncludes key "date" || strIncludes key "day" then some "date"
  else if strIncludes key "phone" || strIncludes key "mobile" then some "phone"
  else none

/-- Integer fragment of JS `Number(string)`: trimmed empty string is
`0`; an optional sign followed by digits parses as an integer; every
other string is modelled as `none` (NaN).  Restriction: decimal,
exponent and hex forms are not modelled — `coerceValue` keeps the
original value on NaN, and no claim exercises those forms. -/
def jsStringToNumber (s : String) : Option Int :=
  let t := listTrim s.data
  if t = [] then some 0
  else
    let (sign, digits) :=
      match t with
      | '-' :: rest => ((-1 : Int), rest)
      | '+' :: rest => ((1 : Int), rest)
      | l => ((1 : Int), l)
    if digits ≠ [] && digits.all Char.isDigit then
      some (sign * (digitsToNat digits : Nat))
    else none

/-- JS `Number(value)` on our value model: numbers pass through,
booleans map to `1`/`0`, `null` to `0`, strings via
`jsStringToNumber`; arrays are not modelled (`none`≈NaN, unused by the
claims) and plain objects are NaN in JS. -/
def jsToNumber : Value → Option Int
  | .num n => some n
  | .bool b => some (if b then 1 else 0)
  | .null => some 0
  | .str s => jsStringToNumber s
  | .arr _ => none
  | .obj _ => none

mutual
/-- JS `String(value)`: strings pass through, numbers and booleans and
`null` print canonically, arrays render as `join(",")`, plain objects
as `"[object Object]"`. -/
def jsToString : Value → String
  | .null => "null"
  | .bool b => if b then "true" else "false"
  | .num n => toString n
  | .str s => s
  | .arr l => jsArrayJoin l
  | .obj _ => "[object Object]"

/-- `Array.prototype.toString` = `join(",")`; `null` elements render
empty. -/
def jsArrayJoin : List Value → String
  | [] => ""
  | [v] => (match v with | .null => "" | w => jsToString w)
  | v :: rest =>
    (match v with | .null => "" | w => jsToString w) ++ "," ++ jsArrayJoin rest
end

/-- Partial model of JS `JSON.parse`, total via `Option`: recognizes the
literals `null`/`true`/`false`, integer numerals, and quoted strings
with no escape or embedded quote; every other input is `none`
(modelling a parse failure).  On each input actually evaluated in this
development the model agrees with `JSON.parse`; theorems about stream
readers otherwise stay parametric in the parse function. -/
def jsonLiteParse (s : String) : Option Value :=
  if s = "null" then some .null
  else if s = "true" then some (.bool true)
  else if s = "false" then some (.bool false)
  else
    match jsStringToNumber s with
    | some n => if strTrim s = s && s ≠ "" then some (.num n) else none
    | none =>
      match s.toList with
      | '"' :: rest =>
        if rest ≠ [] && rest.getLast! = '"' then
          let inner := rest.dropLast
          if inner.all (fun c => c ≠ '"' && c ≠ '\\') then some (.str (String.mk inner))
          else none
        else none
      | _ => none

/-- The slice of a JSON-schema property consumed by the normalizer:
`coerceValue` reads only `schema.type` (mcp-normalizer.ts:111). -/
structure PropSchema where
  type : Option String
  deriving DecidableEq, Repr

/-- `coerceValue` (mcp-normalizer.ts:108-167).  The JS `undefined` early
return has no counterpart: the normalizer only passes values found in
the raw-argument map. -/
def coerceValue (value : Value) (schema : Option PropSchema) : Value :=
  match schema with
  | none => value
  | some ps =>
    if value = .null then value
    else
      match ps.type with
      | none => value
      | some t =>
        if t = "" then value  -- `if (!type) return value` is a falsy test
        else if t = "string" then
          match value with
          | .str _ => value
          | v => .str (jsToString v)
        else if t = "number" || t = "integer" then
          match jsToNumber value with
          | some n => .num n
          | none => value  -- NaN: keep the original value
        else if t = "boolean" then
          match value with
          | .bool _ => value
          | .str s =>
            let v := lowerStr s
            if v = "true" || v = "yes" || v = "1" then .bool true
            else if v = "false" || v = "no" || v = "0" then .bool false
            else value
          | _ => value
        else if t = "array" then
          match value with
          | .arr _ => value
          | .str s =>
            .arr ((splitChar ',' s.data).map (fun seg => .str (String.mk (listTrim seg))))
          | v => .arr [v]
        else if t = "object" then
          match value with
          | .obj _ => value
          | .str s =>
            (match jsonLiteParse s with
             | some p =>
               -- `typeof parsed === "object" && !Array.isArray(parsed)`
               -- also admits `null`
               (match p with
                | .obj _ => p
                | .null => p
                | _ => value)
             | none => value)
          | _ => value
        else value

/-- Log reasons, one constructor per source log string:
`noArguments` ↔ "No arguments provided",
`noSchema` ↔ "No schema; passthrough",
`directMatch` ↔ "Direct key match (normalized)",
`synonymMatch c` ↔ "Concept-based synonym match (c)",
`fuzzyMatch s` ↔ "Fuzzy token similarity match (score=…)" (the source
renders the score `toFixed(2)`; the constructor carries it exactly),
`missingRequired` ↔ "Required field missing; set to null",
`unmatchedOptional` ↔ "No matching argument found; left undefined",
`passthroughExtra` ↔ "Extra argument preserved (not in schema)". -/
inductive Reason where
  | noArguments
  | noSchema
  | directMatch
  | synonymMatch (concept : String)
  | fuzzyMatch (score : Score)
  | missingRequired
  | unmatchedOptional
  | passthroughExtra
  deriving DecidableEq, Repr

/-- `NormalizationLog` entry (mcp-normalizer.ts:24-28). -/
structure LogEntry where
  targetKey : String
  fromKey : Option String
  reason : Reason
  deriving DecidableEq, Repr

/-- `NormalizedArgumentsResult` (mcp-normalizer.ts:30-33); JS objects
are insertion-ordered key/value lists with unique keys. -/
structure NormResult where
  normalized : List (String × Value)
  logs : List LogEntry
  deriving DecidableEq, Repr

/-- JS `Map.prototype.set` / object assignment `o[k] = v` on a
unique-key insertion-ordered list: an existing key keeps its position
and gets the new value, a fresh key is appended. -/
def mapSet {α : Type} : List (String × α) → String → α → List (String × α)
  | [], k, v => [(k, v)]
  | e :: rest, k, v => if e.1 == k then (k, v) :: rest else e :: mapSet rest k v

/-- JS `Map.prototype.get` / `o[k]` on a unique-key list. -/
def mapGet {α : Type} (m : List (String × α)) (k : String) : Option α :=
  (m.find? (fun e => e.1 == k)).map (·.2)

/-- JS `k in o`. -/
def hasKey {α : Type} (m : List (String × α)) (k : String) : Bool :=
  m.any (fun e => e.1 == k)

/-- The `rawNormalizedMap` (mcp-normalizer.ts:195-199): for every raw
entry, `set(normalizeFieldName(key), {key, value})` — so on duplicate
normalized forms the later entry overwrites the earlier binding. -/
def buildRawMap (rawEntries : List (String × Value)) :
    List (String × (String × Value)) :=
  rawEntries.foldl (fun m kv => mapSet m (normalizeFieldName kv.1) (kv.1, kv.2)) []

/-- Step 2 of the property loop: scan the concept's synonym list in
declared order, returning the first raw binding whose normalized form
is present (mcp-normalizer.ts:225-231). -/
def synonymScan (rawMap : List (String × (String × Value))) :
    List String → Option (String × Value)
  | [] => none
  | c :: cs =>
    match mapGet rawMap (normalizeFieldName c) with
    | some found => some found
    | none => synonymScan rawMap cs

/-- Result of the fuzzy scan (mcp-normalizer.ts:245-251): note `key` is
the *normalized* form (the map key), as in the source. -/
structure FuzzyBest where
  score : Score
  key : String
  value : Value
  deriving DecidableEq, Repr

/-- Step 3: fold over the raw map in insertion order keeping the
strictly best score `≥ 0.6`; ties keep the earlier entry. -/
def fuzzyScan (schemaKey : String) (rawMap : List (String × (String × Value))) :
    Option FuzzyBest :=
  rawMap.foldl
    (fun best e =>
      let score := tokenSimilarity schemaKey e.1
      match best with
      | none => if score.ge06 then some ⟨score, e.1, e.2.2⟩ else best
      | some b =>
        if score.ge06 && score.gt b.score then some ⟨score, e.1, e.2.2⟩
        else best)
    none

/-- Steps 3-4 of the property loop (fuzzy fallback, then the
required/optional outcome). -/
def processPropTail (rawMap : List (String × (String × Value)))
    (rawEntries : List (String × Value)) (required : List String)
    (acc : NormResult) (schemaKey : String) (propSchema : PropSchema) : NormResult :=
  match fuzzyScan schemaKey rawMap with
  | some best =>
    let originalKey :=
      ((rawEntries.find? (fun e => normalizeFieldName e.1 == best.key)).map (·.1)).getD best.key
    { normalized := mapSet acc.normalized schemaKey (coerceValue best.value (some propSchema)),
      logs := acc.logs ++ [⟨schemaKey, some originalKey, .fuzzyMatch best.score⟩] }
  | none =>
    if required.contains schemaKey then
      { normalized := mapSet acc.normalized schemaKey .null,
        logs := acc.logs ++ [⟨schemaKey, none, .missingRequired⟩] }
    else
      { normalized := acc.normalized,
        logs := acc.logs ++ [⟨schemaKey, none, .unmatchedOptional⟩] }

/-- One iteration of the property loop of `normalizeMCPArguments`
(mcp-normalizer.ts:204-277): direct match, then concept/synonym match,
then fuzzy match, then the required/optional fallback. -/
def processProp (rawMap : List (String × (String × Value)))
    (rawEntries : List (String × Value)) (required : List String)
    (acc : NormResult) (p : String × PropSchema) : NormResult :=
  let schemaKey := p.1
  let propSchema := p.2
  let targetNorm := normalizeFieldName schemaKey
  match mapGet rawMap targetNorm with
  | some m =>
    { normalized := mapSet acc.normalized schemaKey (coerceValue m.2 (some propSchema)),
      logs := acc.logs ++ [⟨schemaKey, some m.1, .directMatch⟩] }
  | none =>
    match guessConceptForSchemaKey schemaKey with
    | some concept =>
      match mapGet globalConceptSynonyms concept with
      | some candidates =>
        match synonymScan rawMap candidates with
        | some found =>
          { normalized := mapSet acc.normalized schemaKey (coerceValue found.2 (some propSchema)),
            logs := acc.logs ++ [⟨schemaKey, some found.1, .synonymMatch concept⟩] }
        | none => processPropTail rawMap rawEntries required acc schemaKey propSchema
      | none => processPropTail rawMap rawEntries required acc schemaKey propSchema
    | none => processPropTail rawMap rawEntries required acc schemaKey propSchema

/-- The property loop (mcp-normalizer.ts:204-277) over all schema
properties, from the empty accumulator. -/
def propPhase (rawMap : List (String × (String × Value)))
    (rawEntries : List (String × Value)) (required : List String)
    (props : List (String × PropSchema)) : NormResult :=
  props.foldl (processProp rawMap rawEntries required) ⟨[], []⟩

/-- Step 5 (mcp-normalizer.ts:281-290): copy every raw entry whose key
is not already a key of the normalized output, logging
`passthroughExtra`. -/
def keepExtras (rawEntries : List (String × Value)) (acc : NormResult) : NormResult :=
  rawEntries.foldl
    (fun acc kv =>
      if hasKey acc.normalized kv.1 then acc
      else
        { normalized := acc.normalized ++ [(kv.1, kv.2)],
          logs := acc.logs ++ [⟨kv.1, some kv.1, .passthroughExtra⟩] })
    acc

/-- The slice of `JSONSchema` (mcp-normalizer.ts:8-15) consumed by
`normalizeMCPArguments`: `properties` (absent or a key-ordered map) and
`required`. -/
structure JSONSchema where
  properties : Option (List (String × PropSchema))
  required : Option (List String)
  deriving DecidableEq, Repr

/-- `MCPToolDefinition` (mcp-normalizer.ts:17-22). -/
structure MCPToolDefinition where
  name : String
  inputSchema : Option JSONSchema
  input_schema : Option JSONSchema
  deriving DecidableEq, Repr

/-- `tool.inputSchema || tool.input_schema`: a schema object is always
truthy, so the first present one wins. -/
def MCPToolDefinition.effectiveSchema (t : MCPToolDefinition) : Option JSONSchema :=
  match t.inputSchema with
  | some s => some s
  | none => t.input_schema

/-- `normalizeMCPArguments` (mcp-normalizer.ts:175-293).  `rawArgs` is
`none` when the caller passed `null`/`undefined`/a non-object (the
`!rawArgs || typeof rawArgs !== "object"` guard); otherwise it is the
insertion-ordered entry list of the argument object. -/
def normalizeMCPArguments (tool : MCPToolDefinition)
    (rawArgs : Option (List (String × Value))) : NormResult :=
  match rawArgs with
  | none => { normalized := [], logs := [⟨"*", none, .noArguments⟩] }
  | some rawEntries =>
    match tool.effectiveSchema with
    | none => { normalized := rawEntries, logs := [⟨"*", none, .noSchema⟩] }
    | some schema =>
      match schema.properties with
      | none => { normalized := rawEntries, logs := [⟨"*", none, .noSchema⟩] }
      | some props =>
        let required := schema.required.getD []
        let rawMap := buildRawMap rawEntries
        keepExtras rawEntries (propPhase rawMap rawEntries required props)

/-! ## Schema normalizer
(`src/app/api/mcp/tools/route.ts:13-42` and `src/unnamed/part_004:195-234`,
which are the same function; the part_004 copy has an extra
`if (schema?.properties || schema?.type) return schema` branch in front
of the final `return schema`, with the same result). -/

/-- Truthiness of a possibly-`undefined` value. -/
def truthyOpt : Option Value → Bool
  | some v => v.truthy
  | none => false

/-- The array-descriptor branch of `normalizeSchema`: for each entry
with a truthy `name`, add `properties[name] = {type: type || "string",
description: description || ""}` (JS computed keys coerce through
`String(...)`), and push the raw `name` value onto `required` when the
entry's `required` is truthy. -/
def buildFieldSchema (fields : List Value) : List (String × Value) × List Value :=
  fields.foldl
    (fun acc p =>
      if ¬ truthyOpt (p.getField "name") then acc  -- `if (!p?.name) continue`
      else
        let nameV := (p.getField "name").getD .null
        let key := jsToString nameV
        let typeV :=
          match p.getField "type" with
          | some t => if t.truthy then t else .str "string"
          | none => .str "string"
        let descV :=
          match p.getField "description" with
          | some d => if d.truthy then d else .str ""
          | none => .str ""
        ( mapSet acc.1 key (.obj [("type", typeV), ("description", descV)]),
          if truthyOpt (p.getField "required") then acc.2 ++ [nameV] else acc.2 ))
    ([], [])

/-- `normalizeSchema` (tools/route.ts:13-42, part_004:195-234).  A JS
`undefined` argument behaves exactly like `null` here (falsy, no
property reads), so a single `Value` argument covers it. -/
def normalizeSchema (schema : Value) : Value :=
  if ¬ schema.truthy then .obj []  -- `if (!schema) return {}`
  else if schema.getField "type" = some (.str "object")
      && truthyOpt (schema.getField "properties") then
    schema  -- already a JSON schema
  else
    match schema with
    | .arr fields =>
      let (properties, required) := buildFieldSchema fields
      .obj ([("type", .str "object"), ("properties", .obj properties)] ++
        (if required.length > 0 then [("required", .arr required)] else []))
    | _ => schema  -- fallback passthrough

/-! ## SSE stream readers

The execute route (`src/unnamed/part_001:114-142`, `part_002:130-158`,
`part_003:158-184`) and the tools-list route (`part_004:302-339`) read
an event-stream body chunk by chunk: append the chunk to a carry-over
buffer, split on `"\n"`, hold the last (incomplete) segment back, and
for every complete line starting with `"data:"` strip the prefix, trim,
and try to parse JSON, keeping the last successful parse.  The readers
are parametric in the JSON parse function (`JSON.parse` is a platform
builtin); `jsonLiteParse` instantiates it where a concrete value is
needed. -/

/-- State of the read loop: carry-over buffer and last parsed value. -/
structure SseState where
  buffer : List Char
  lastJSON : Option Value
  deriving DecidableEq, Repr

/-- Process one complete line: `line.startsWith("data:")`, then
`line.replace("data:", "").trim()` — on a line that starts with the
prefix, replacing its first occurrence equals dropping it — then
`JSON.parse`, keeping the previous value on parse failure. -/
def processLine (parse : String → Option Value) (last : Option Value)
    (line : List Char) : Option Value :=
  if ("data:".data).isPrefixOf line then
    let raw := listTrim (line.drop 5)
    match parse (String.mk raw) with
    | some v => some v
    | none => last
  else last

/-- One iteration of the read loop on a decoded chunk. -/
def sseStep (parse : String → Option Value) (st : SseState) (chunk : List Char) :
    SseState :=
  let lines := splitChar '\n' (st.buffer ++ chunk)
  { buffer := lines.getLastD [],
    lastJSON := (lines.dropLast).foldl (processLine parse) st.lastJSON }

/-- The loop over all chunks, starting from an empty buffer. -/
def sseRun (parse : String → Option Value) (chunks : List (List Char)) : SseState :=
  chunks.foldl (sseStep parse) ⟨[], none⟩

/-- Execute-route result: `json = lastJSON ?? {}` — the nullish
coalescing also maps a parsed JSON `null` to `{}`. -/
def sseReadP1 (parse : String → Option Value) (chunks : List (List Char)) : Value :=
  match (sseRun parse chunks).lastJSON with
  | some v => if v = .null then .obj [] else v
  | none => .obj []

/-- Bytes of an ASCII string. -/
def asciiBytes (s : String) : List Nat :=
  s.data.map Char.toNat

/-- WHATWG UTF-8 decode with replacement (`TextDecoder` with the
default `fatal: false`): ill-formed subsequences become `U+FFFD`, a
truncated sequence at end of input becomes a single `U+FFFD`, and a
continuation byte that breaks a sequence is re-examined as a new lead.
Modelled from the platform specification — the source calls the
builtin `TextDecoder.decode`. -/
def utf8Go : List Nat → List Char
  | [] => []
  | b :: rest =>
    if b ≤ 0x7F then Char.ofNat b :: utf8Go rest
    else if 0xC2 ≤ b && b ≤ 0xDF then
      match rest with
      | [] => [Char.ofNat 0xFFFD]
      | b2 :: rest2 =>
        if 0x80 ≤ b2 && b2 ≤ 0xBF then
          Char.ofNat ((b - 0xC0) * 0x40 + (b2 - 0x80)) :: utf8Go rest2
        else Char.ofNat 0xFFFD :: utf8Go (b2 :: rest2)
    else if 0xE0 ≤ b && b ≤ 0xEF then
      match rest with
      | [] => [Char.ofNat 0xFFFD]
      | b2 :: rest2 =>
        if (if b = 0xE0 then 0xA0 else 0x80) ≤ b2 &&
            b2 ≤ (if b = 0xED then 0x9F else 0xBF) then
          match rest2 with
          | [] => [Char.ofNat 0xFFFD]
          | b3 :: rest3 =>
            if 0x80 ≤ b3 && b3 ≤ 0xBF then
              Char.ofNat ((b - 0xE0) * 0x1000 + (b2 - 0x80) * 0x40 + (b3 - 0x80)) ::
                utf8Go rest3
            else Char.ofNat 0xFFFD :: utf8Go (b3 :: rest3)
        else Char.ofNat 0xFFFD :: utf8Go (b2 :: rest2)
    else if 0xF0 ≤ b && b ≤ 0xF4 then
      match rest with
      | [] => [Char.ofNat 0xFFFD]
      | b2 :: rest2 =>
        if (if b = 0xF0 then 0x90 else 0x80) ≤ b2 &&
            b2 ≤ (if b = 0xF4 then 0x8F else 0xBF) then
          match rest2 with
          | [] => [Char.ofNat 0xFFFD]
          | b3 :: rest3 =>
            if 0x80 ≤ b3 && b3 ≤ 0xBF then
              match rest3 with
              | [] => [Char.ofNat 0xFFFD]
              | b4 :: rest4 =>
                if 0x80 ≤ b4 && b4 ≤ 0xBF then
                  Char.ofNat ((b - 0xF0) * 0x40000 + (b2 - 0x80) * 0x1000 +
                      (b3 - 0x80) * 0x40 + (b4 - 0x80)) :: utf8Go rest4
                else Char.ofNat 0xFFFD :: utf8Go (b4 :: rest4)
            else Char.ofNat 0xFFFD :: utf8Go (b3 :: rest3)
        else Char.ofNat 0xFFFD :: utf8Go (b2 :: rest2)
    else Char.ofNat 0xFFFD :: utf8Go rest

/-- One whole-buffer (flushing) `decoder.decode(value)` call, as issued
per chunk by `part_001`/`part_003` (`new TextDecoder()` without
`{stream: true}`): every call decodes its chunk in isolation. -/
def utf8DecodeFlush (bytes : List Nat) : List Char :=
  utf8Go bytes

/-- The byte-level execute-route reader of `part_001:114-142`:
`buffer += decoder.decode(value)` with a per-chunk flushing decode,
then the shared line loop. -/
def sseReadBytesP1 (parse : String → Option Value) (chunks : List (List Nat)) : Value :=
  sseReadP1 parse (chunks.map utf8DecodeFlush)

/-! ## HTTP response handling (execute route part_001:108-164,
tools-list route part_004:296-374) -/

/-- Declared content kind of the reply (`content-type` sniffing:
`includes("text/event-stream")`, then `includes("application/json")`,
else unknown). -/
inductive ContentKind where
  | sse
  | json
  | other
  deriving DecidableEq, Repr

/-- The slice of a `fetch` response the handlers consume: `ok`/`status`,
the declared content kind, the body chunks when it is an event stream,
and the outcome of `await response.json().catch(() => null)` when it is
a JSON document (`none` models a body `JSON.parse` failure). -/
structure MCPResponse where
  ok : Bool
  status : Nat
  kind : ContentKind
  chunks : List (List Char)
  jsonBody : Option Value
  deriving DecidableEq, Repr

/-- Outcome of the shared parse-then-status sequence in the route
handlers. -/
inductive HandlerOutcome where
  | formatError
  | sseParseError
  | httpError (status : Nat) (body : Value)
  | ok (json : Value)
  deriving DecidableEq, Repr

/-- `part_001:108-164`: parse the body by declared kind (event stream →
`lastJSON ?? {}`; JSON → parsed body or `null`; anything else → the
unknown-format failure), and only then check `response.ok`, answering a
failure that carries `HTTP ${status}` and the parsed body. -/
def receiveP1 (parse : String → Option Value) (r : MCPResponse) : HandlerOutcome :=
  match r.kind with
  | .sse =>
    let json := sseReadP1 parse r.chunks
    if ¬ r.ok then .httpError r.status json else .ok json
  | .json =>
    let json := match r.jsonBody with | some v => v | none => .null
    if ¬ r.ok then .httpError r.status json else .ok json
  | .other => .formatError

/-- `part_004:296-374` (second tools-list variant): in the event-stream
branch a falsy `finalJSON` answers "Failed to parse SSE response"
before the `response.ok` check ever runs. -/
def receiveToolsP4 (parse : String → Option Value) (r : MCPResponse) : HandlerOutcome :=
  match r.kind with
  | .sse =>
    match (sseRun parse r.chunks).lastJSON with
    | some v =>
      if v.truthy then
        if ¬ r.ok then .httpError r.status v else .ok v
      else .sseParseError  -- `if (!finalJSON)` is a truthiness test
    | none => .sseParseError
  | .json =>
    let json := match r.jsonBody with | some v => v | none => .null
    if ¬ r.ok then .httpError r.status json else .ok json
  | .other => .formatError

/-! ## Response unwrapper (part_001:170-183, part_003:213-225) -/

/-- `json?.result ?? json`: start from `result` when it is present and
non-nullish, else from the document itself. -/
def payloadOf (json : Value) : Value :=
  match json.getField "result" with
  | some r => if r = .null then json else r
  | none => json

/-- Emit a field only when the source read yields a defined value: an
`undefined`-valued property is dropped by the `NextResponse.json`
serialization, which is where the unwrapped payload becomes
observable. -/
def optField (dd : Value) (name : String) : List (String × Value) :=
  match dd.getField name with
  | some v => [(name, v)]
  | none => []

/-- `part_001:170-183`: for `RUBE_MULTI_EXECUTE_TOOL` with a truthy
doubly-nested `data.data.results`, rebuild the payload as
`{results, session, time_info, memory}` from that location; otherwise
keep the payload. -/
def unwrapP1 (toolName : String) (json : Value) : Value :=
  let rp := payloadOf json
  if toolName == "RUBE_MULTI_EXECUTE_TOOL"
      && truthyOpt (rp.dig ["data", "data", "results"]) then
    let dd := (rp.dig ["data", "data"]).getD .null
    .obj ([("results", (dd.getField "results").getD .null)] ++
      optField dd "session" ++ optField dd "time_info" ++ optField dd "memory")
  else rp

/-- `part_003:213-225`: same detection; the rebuilt payload is
`{results, memory: … ?? {}, time_info: … ?? {}}` (no `session`, and the
optional fields default to `{}` via nullish coalescing). -/
def unwrapP3 (toolName : String) (json : Value) : Value :=
  let rp := payloadOf json
  if toolName == "RUBE_MULTI_EXECUTE_TOOL"
      && truthyOpt (rp.dig ["data", "data", "results"]) then
    let dd := (rp.dig ["data", "data"]).getD .null
    let orEmpty (name : String) : Value :=
      match dd.getField name with
      | some v => if v = .null then .obj [] else v
      | none => .obj []
    .obj [("results", (dd.getField "results").getD .null),
          ("memory", orEmpty "memory"), ("time_info", orEmpty "time_info")]
  else rp

/-! ## Persistent-session client (`src/lib/mcp-client.ts:17-25`) -/

/-- The inbound listener of `MCPClient`: on a parsed message, a falsy
`id` returns immediately; otherwise the pending map is probed with the
id (a `Map` keyed by the strings `"1"`, `"2"`, … produced by `send`;
a non-string inbound id matches no entry under `Map.get`), and on a hit
the resolver is called with the message and the entry deleted.  The
pending map is modelled as an insertion-ordered unique-key list of
`(id, slot)` pairs; the result pairs the new map with the resolved
slot, `none` when the message was dropped. -/
def handleMessage (pending : List (String × Nat)) (data : Value) :
    List (String × Nat) × Option (Nat × Value) :=
  match data.getField "id" with
  | none => (pending, none)
  | some idv =>
    if ¬ idv.truthy then (pending, none)  -- `if (!data.id) return`
    else
      match idv with
      | .str s =>
        match pending.find? (fun e => e.1 == s) with
        | some e =>
          -- `resolver(data); this.pending.delete(data.id)`; `Map` keys
          -- are unique, so deleting the key removes exactly this entry
          (pending.filter (fun q => ¬ (q.1 == s)), some (e.2, data))
        | none => (pending, none)
      | _ => (pending, none)

/-! ## Derived notions used by the theorem statements -/

/-- The direct-match lookup performed by step 1 of the property loop. -/
def directLookup (rawMap : List (String × (String × Value))) (schemaKey : String) :
    Option (String × Value) :=
  mapGet rawMap (normalizeFieldName schemaKey)

/-- The concept/synonym lookup performed by step 2 of the property
loop: classify the key, fetch the concept's synonym list, scan it. -/
def synonymLookup (rawMap : List (String × (String × Value))) (schemaKey : String) :
    Option (String × Value) :=
  match guessConceptForSchemaKey schemaKey with
  | some concept =>
    match mapGet globalConceptSynonyms concept with
    | some candidates => synonymScan rawMap candidates
    | none => none
  | none => none

/-- The body the handler parsed for a response of a recognized content
kind (what `json` holds when the `response.ok` check runs in
part_001). -/
def parsedBodyP1 (parse : String → Option Value) (r : MCPResponse) : Value :=
  match r.kind with
  | .sse => sseReadP1 parse r.chunks
  | .json => match r.jsonBody with | some v => v | none => .null
  | .other => .null

/-- Whether a handler outcome is the failure that carries the HTTP
status code (the `{success:false, error:"HTTP <status>", response}`
reply). -/
def carriesStatus : HandlerOutcome → Bool
  | .httpError _ _ => true
  | _ => false

/-- The shape the C4 claim prescribes for degenerate inputs: an object
schema with `type: "object"`, empty `properties`, and empty or absent
`required`. -/
def isEmptyObjectSchema (v : Value) : Bool :=
  v.getField "type" = some (.str "object") &&
  v.getField "properties" = some (.obj []) &&
  (v.getField "required" = none || v.getField "required" = some (.arr []))

/-- The C5 test payload
`{result:{data:{data:{results:[1,2], memory:{a:1}, time_info:{t:5}}}}}`. -/
def multiExecPayload : Value :=
  .obj [("result", .obj [("data", .obj [("data",
    .obj [("results", .arr [.num 1, .num 2]), ("memory", .obj [("a", .num 1)]),
          ("time_info", .obj [("t", .num 5)])])])])]

/-- First chunk of the C3 failing read sequence: the ASCII bytes of
`data:"` followed by `0xC3`, the first byte of the two-byte UTF-8
encoding of `é`. -/
def c3Chunk1 : List Nat := asciiBytes "data:\"" ++ [0xC3]

/-- Second chunk of the C3 failing read sequence: `0xA9`, the second
byte of `é`, followed by the ASCII bytes of `"` and a newline. -/
def c3Chunk2 : List Nat := [0xA9] ++ asciiBytes "\"\n"

/-! ## Map lemmas -/

theorem mapGet_nil {α : Type} (k : String) : mapGet ([] : List (String × α)) k = none := rfl

theorem mapGet_cons {α : Type} (e : String × α) (m : List (String × α)) (k : String) :
    mapGet (e :: m) k = if e.1 = k then some e.2 else mapGet m k := by
  by_cases h : e.1 = k
  · simp [mapGet, List.find?, h]
  · simp [mapGet, List.find?, h, show (e.1 == k) = false by simpa using h]

theorem mapGet_mapSet {α : Type} (m : List (String × α)) (k k₂ : String) (v : α) :
    mapGet (mapSet m k v) k₂ = if k₂ = k then some v else mapGet m k₂ := by
  induction m with
  | nil =>
    rw [mapSet, mapGet_cons, mapGet_nil]
    by_cases h : k₂ = k
    · rw [if_pos h.symm, if_pos h]
    · rw [if_neg (fun hh => h hh.symm), if_neg h]
  | cons e rest ih =>
    rw [mapSet]
    by_cases he : e.1 = k
    · rw [if_pos (by simpa using he), mapGet_cons]
      by_cases h : k₂ = k
      · rw [if_pos h.symm, if_pos h]
      · rw [if_neg (fun hh => h hh.symm), if_neg h, mapGet_cons,
          if_neg (fun hh : e.1 = k₂ => h (hh.symm.trans he))]
    · rw [if_neg (by simpa using he), mapGet_cons, mapGet_cons, ih]
      by_cases h : k₂ = k
      · rw [if_pos h, if_pos h, if_neg (fun hh : e.1 = k₂ => he (hh.trans h))]
      · rw [if_neg h, if_neg h]

theorem hasKey_iff_isSome {α : Type} (m : List (String × α)) (k : String) :
    hasKey m k = (mapGet m k).isSome := by
  induction m with
  | nil => rfl
  | cons e rest ih =>
    by_cases h : e.1 = k
    · simp [hasKey, mapGet_cons, h]
    · simp only [hasKey, List.any_cons, show (e.1 == k) = false by simpa using h,
        Bool.false_or, mapGet_cons, if_neg h]
      simpa [hasKey] using ih

/-- First-defined choice on options. -/
def orElseO {α : Type} : Option α → Option α → Option α
  | some x, _ => some x
  | none, b => b

theorem orElseO_some {α : Type} (x : α) (b : Option α) : orElseO (some x) b = some x := rfl

theorem orElseO_none {α : Type} (b : Option α) : orElseO none b = b := rfl

theorem orElseO_assoc {α : Type} (a b c : Option α) :
    orElseO (orElseO a b) c = orElseO a (orElseO b c) := by
  cases a <;> rfl

theorem orElseO_right_none {α : Type} (a : Option α) : orElseO a none = a := by
  cases a <;> rfl

theorem getLast?_cons_orElse {α : Type} (e : α) (l : List α) :
    (e :: l).getLast? = orElseO l.getLast? (some e) := by
  induction l generalizing e with
  | nil => rfl
  | cons x xs ih =>
    rw [List.getLast?_cons_cons, ih x]
    cases hx : xs.getLast? <;> simp [orElseO, ih, hx]

/-- The raw-map lookup resolves every normalized form to the *last*
raw entry carrying that form (`Map.set` overwrites on duplicates). -/
theorem buildRawMap_get (rawEntries : List (String × Value)) (f : String) :
    mapGet (buildRawMap rawEntries) f =
      (rawEntries.filter (fun e => normalizeFieldName e.1 == f)).getLast? := by
  suffices h : ∀ (m : List (String × (String × Value))),
      mapGet (rawEntries.foldl
          (fun m kv => mapSet m (normalizeFieldName kv.1) (kv.1, kv.2)) m) f =
        orElseO ((rawEntries.filter (fun e => normalizeFieldName e.1 == f)).getLast?)
          (mapGet m f) by
    have hh := h []
    rw [mapGet_nil, orElseO_right_none] at hh
    exact hh
  induction rawEntries with
  | nil => intro m; simp [orElseO]
  | cons e rest ih =>
    intro m
    by_cases hf : normalizeFieldName e.1 = f
    · simp only [List.foldl_cons, ih, List.filter_cons,
        show (normalizeFieldName e.1 == f) = true by simpa using hf, if_true]
      rw [getLast?_cons_orElse, orElseO_assoc, mapGet_mapSet]
      rw [if_pos hf.symm]
      rfl
    · simp only [List.foldl_cons, ih, List.filter_cons,
        show (normalizeFieldName e.1 == f) = false by simpa using hf,
        Bool.false_eq_true, if_false]
      rw [mapGet_mapSet, if_neg (fun hh => hf hh.symm)]

theorem mapGet_append {α : Type} (a b : List (String × α)) (k : String) :
    mapGet (a ++ b) k = orElseO (mapGet a k) (mapGet b k) := by
  induction a with
  | nil => simp [mapGet_nil, orElseO]
  | cons e rest ih =>
    rw [List.cons_append, mapGet_cons, mapGet_cons]
    by_cases h : e.1 = k
    · rw [if_pos h, if_pos h, orElseO_some]
    · rw [if_neg h, if_neg h, ih]

/-! ## Lemmas about the passthrough phase (`keepExtras`) -/

theorem keepExtras_nil (acc : NormResult) : keepExtras [] acc = acc := rfl

theorem keepExtras_cons (e : String × Value) (rest : List (String × Value))
    (acc : NormResult) :
    keepExtras (e :: rest) acc =
      keepExtras rest
        (if hasKey acc.normalized e.1 then acc
         else
           { normalized := acc.normalized ++ [(e.1, e.2)],
             logs := acc.logs ++ [⟨e.1, some e.1, .passthroughExtra⟩] }) := by
  rw [keepExtras, keepExtras, List.foldl_cons]

theorem keepExtras_logs_mono (entries : List (String × Value)) (acc : NormResult)
    (l : LogEntry) (hl : l ∈ acc.logs) : l ∈ (keepExtras entries acc).logs := by
  induction entries generalizing acc with
  | nil => exact hl
  | cons e rest ih =>
    rw [keepExtras_cons]
    by_cases h : hasKey acc.normalized e.1
    · rw [if_pos h]; exact ih acc hl
    · rw [if_neg h]
      exact ih _ (List.mem_append_left _ hl)

theorem keepExtras_hasKey_mono (entries : List (String × Value)) (acc : NormResult)
    (k : String) (hk : hasKey acc.normalized k = true) :
    hasKey (keepExtras entries acc).normalized k = true ∧
      mapGet (keepExtras entries acc).normalized k = mapGet acc.normalized k := by
  induction entries generalizing acc with
  | nil => exact ⟨hk, rfl⟩
  | cons e rest ih =>
    rw [keepExtras_cons]
    by_cases h : hasKey acc.normalized e.1
    · rw [if_pos h]; exact ih acc hk
    · rw [if_neg h]
      have hkk : e.1 ≠ k := fun hh => h (hh ▸ hk)
      have hget : mapGet (acc.normalized ++ [(e.1, e.2)]) k = mapGet acc.normalized k := by
        rw [mapGet_append]
        have hs : (mapGet acc.normalized k).isSome := by
          rw [← hasKey_iff_isSome]; exact hk
        rcases ho : mapGet acc.normalized k with _ | w
        · rw [ho] at hs; exact absurd hs (by simp)
        · rw [orElseO_some]
      have hkey : hasKey (acc.normalized ++ [(e.1, e.2)]) k = true := by
        rw [hasKey_iff_isSome, hget, ← hasKey_iff_isSome]; exact hk
      have := ih { normalized := acc.normalized ++ [(e.1, e.2)],
                   logs := acc.logs ++ [⟨e.1, some e.1, .passthroughExtra⟩] } hkey
      exact ⟨this.1, this.2.trans hget⟩

theorem keepExtras_adds (entries : List (String × Value)) (acc : NormResult)
    (k : String) (v : Value) (hmem : (k, v) ∈ entries)
    (hnd : (entries.map Prod.fst).Nodup)
    (hk : hasKey acc.normalized k = false) :
    mapGet (keepExtras entries acc).normalized k = some v ∧
      (⟨k, some k, .passthroughExtra⟩ : LogEntry) ∈ (keepExtras entries acc).logs := by
  induction entries generalizing acc with
  | nil => cases hmem
  | cons e rest ih =>
    rw [keepExtras_cons]
    rcases List.mem_cons.mp hmem with heq | hrest
    · subst heq
      rw [if_neg (by rw [hk]; simp)]
      set acc' : NormResult :=
        { normalized := acc.normalized ++ [(k, v)],
          logs := acc.logs ++ [⟨k, some k, .passthroughExtra⟩] } with hacc
      have hget : mapGet acc'.normalized k = some v := by
        rw [hacc, mapGet_append]
        have : mapGet acc.normalized k = none := by
          have hs := hasKey_iff_isSome acc.normalized k
          rw [hk] at hs
          rcases ho : mapGet acc.normalized k with _ | w
          · rfl
          · rw [ho] at hs; exact absurd hs.symm (by simp)
        rw [this, orElseO_none, mapGet_cons, if_pos rfl]
      have hkey : hasKey acc'.normalized k = true := by
        rw [hasKey_iff_isSome, hget]; rfl
      have hmono := keepExtras_hasKey_mono rest acc' k hkey
      refine ⟨hmono.2.trans hget, ?_⟩
      exact keepExtras_logs_mono rest acc' _ (by rw [hacc]; simp)
    · have hkne : e.1 ≠ k := by
        intro hh
        have : k ∈ rest.map Prod.fst := List.mem_map_of_mem Prod.fst hrest
        have hnd1 := (List.nodup_cons.mp hnd).1
        exact hnd1 (hh ▸ this)
      have hnd2 := (List.nodup_cons.mp hnd).2
      by_cases h : hasKey acc.normalized e.1
      · rw [if_pos h]; exact ih acc hrest hnd2 hk
      · rw [if_neg h]
        refine ih _ hrest hnd2 ?_
        show hasKey (acc.normalized ++ [(e.1, e.2)]) k = false
        rw [hasKey_iff_isSome, mapGet_append]
        have hnone : mapGet acc.normalized k = none := by
          have hs := hasKey_iff_isSome acc.normalized k
          rw [hk] at hs
          rcases ho : mapGet acc.normalized k with _ | w
          · rfl
          · rw [ho] at hs; exact absurd hs.symm (by simp)
        rw [hnone, orElseO_none, mapGet_cons, if_neg hkne, mapGet_nil]
        rfl

theorem keepExtras_no_pt_log (entries : List (String × Value)) (acc : NormResult)
    (k : String) (hk : hasKey acc.normalized k = true)
    (hnl : (⟨k, some k, .passthroughExtra⟩ : LogEntry) ∉ acc.logs) :
    (⟨k, some k, .passthroughExtra⟩ : LogEntry) ∉ (keepExtras entries acc).logs := by
  induction entries generalizing acc with
  | nil => exact hnl
  | cons e rest ih =>
    rw [keepExtras_cons]
    by_cases h : hasKey acc.normalized e.1
    · rw [if_pos h]; exact ih acc hk hnl
    · rw [if_neg h]
      have hkne : e.1 ≠ k := fun hh => h (hh ▸ hk)
      have hkey := (keepExtras_hasKey_mono [] _ k hk).1
      refine ih _ ?_ ?_
      · show hasKey (acc.normalized ++ [(e.1, e.2)]) k = true
        rw [hasKey_iff_isSome, mapGet_append]
        have hs : (mapGet acc.normalized k).isSome := by
          rw [← hasKey_iff_isSome]; exact hk
        rcases ho : mapGet acc.normalized k with _ | w
        · rw [ho] at hs; exact absurd hs (by simp)
        · rw [orElseO_some]; rfl
      · intro hmem
        rcases List.mem_append.mp hmem with hin | hin
        · exact hnl hin
        · rcases List.mem_singleton.mp hin with hh
          exact hkne (congrArg LogEntry.targetKey hh).symm

theorem keepExtras_get_none (entries : List (String × Value)) (acc : NormResult)
    (k : String) (hnone : mapGet acc.normalized k = none)
    (hnot : ∀ v, (k, v) ∉ entries) :
    mapGet (keepExtras entries acc).normalized k = none := by
  induction entries generalizing acc with
  | nil => exact hnone
  | cons e rest ih =>
    rw [keepExtras_cons]
    have hkne : e.1 ≠ k := by
      intro hh
      exact hnot e.2 (by rw [← hh]; exact List.mem_cons_self e rest)
    have hrest : ∀ v, (k, v) ∉ rest := fun v hv => hnot v (List.mem_cons_of_mem e hv)
    by_cases h : hasKey acc.normalized e.1
    · rw [if_pos h]; exact ih acc hnone hrest
    · rw [if_neg h]
      refine ih _ ?_ hrest
      show mapGet (acc.normalized ++ [(e.1, e.2)]) k = none
      rw [mapGet_append, hnone, orElseO_none, mapGet_cons, if_neg hkne, mapGet_nil]

/-! ## Lemmas about the property loop -/

theorem processPropTail_get_frame (rm : List (String × (String × Value)))
    (re : List (String × Value)) (req : List String) (acc : NormResult)
    (sk : String) (ps : PropSchema) (q : String) (hq : q ≠ sk) :
    mapGet (processPropTail rm re req acc sk ps).normalized q = mapGet acc.normalized q := by
  rw [processPropTail]
  cases hf : fuzzyScan sk rm with
  | some best => simp only []; rw [mapGet_mapSet, if_neg hq]
  | none =>
    simp only []
    by_cases hr : req.contains sk
    · rw [if_pos hr]; simp only []; rw [mapGet_mapSet, if_neg hq]
    · rw [if_neg hr]

theorem processProp_get_frame (rm : List (String × (String × Value)))
    (re : List (String × Value)) (req : List String) (acc : NormResult)
    (p : String × PropSchema) (q : String) (hq : q ≠ p.1) :
    mapGet (processProp rm re req acc p).normalized q = mapGet acc.normalized q := by
  rw [processProp]
  cases hm : mapGet rm (normalizeFieldName p.1) with
  | some m => simp only []; rw [mapGet_mapSet, if_neg hq]
  | none =>
    simp only []
    cases hg : guessConceptForSchemaKey p.1 with
    | some concept =>
      simp only []
      cases ht : mapGet globalConceptSynonyms concept with
      | some candidates =>
        simp only []
        cases hs : synonymScan rm candidates with
        | some found => simp only []; rw [mapGet_mapSet, if_neg hq]
        | none => exact processPropTail_get_frame rm re req acc p.1 p.2 q hq
      | none => exact processPropTail_get_frame rm re req acc p.1 p.2 q hq
    | none => exact processPropTail_get_frame rm re req acc p.1 p.2 q hq

theorem processProp_logs_shape (rm : List (String × (String × Value)))
    (re : List (String × Value)) (req : List String) (acc : NormResult)
    (p : String × PropSchema) :
    ∃ en : LogEntry, (processProp rm re req acc p).logs = acc.logs ++ [en] ∧
      en.reason ≠ .passthroughExtra := by
  rw [processProp]
  cases hm : mapGet rm (normalizeFieldName p.1) with
  | some m => exact ⟨_, rfl, fun h => Reason.noConfusion h⟩
  | none =>
    simp only []
    have htail : ∃ en : LogEntry,
        (processPropTail rm re req acc p.1 p.2).logs = acc.logs ++ [en] ∧
          en.reason ≠ .passthroughExtra := by
      rw [processPropTail]
      cases hf : fuzzyScan p.1 rm with
      | some best => exact ⟨_, rfl, fun h => Reason.noConfusion h⟩
      | none =>
        simp only []
        by_cases hr : req.contains p.1
        · rw [if_pos hr]; exact ⟨_, rfl, fun h => Reason.noConfusion h⟩
        · rw [if_neg hr]; exact ⟨_, rfl, fun h => Reason.noConfusion h⟩
    cases hg : guessConceptForSchemaKey p.1 with
    | some concept =>
      simp only []
      cases ht : mapGet globalConceptSynonyms concept with
      | some candidates =>
        simp only []
        cases hs : synonymScan rm candidates with
        | some found => exact ⟨_, rfl, fun h => Reason.noConfusion h⟩
        | none => exact htail
      | none => exact htail
    | none => exact htail

/-- The no-match case of one property-loop iteration: with all three
strategies failing, a required property is bound to `null` with a
`missingRequired` log, an optional one is skipped with an
`unmatchedOptional` log. -/
theorem processProp_noMatch (rm : List (String × (String × Value)))
    (re : List (String × Value)) (req : List String) (acc : NormResult)
    (sk : String) (ps : PropSchema)
    (h1 : directLookup rm sk = none)
    (h2 : synonymLookup rm sk = none)
    (h3 : fuzzyScan sk rm = none) :
    processProp rm re req acc (sk, ps) =
      if req.contains sk then
        { normalized := mapSet acc.normalized sk .null,
          logs := acc.logs ++ [⟨sk, none, .missingRequired⟩] }
      else
        { normalized := acc.normalized,
          logs := acc.logs ++ [⟨sk, none, .unmatchedOptional⟩] } := by
  have htail : processPropTail rm re req acc sk ps =
      if req.contains sk then
        { normalized := mapSet acc.normalized sk .null,
          logs := acc.logs ++ [⟨sk, none, .missingRequired⟩] }
      else
        { normalized := acc.normalized,
          logs := acc.logs ++ [⟨sk, none, .unmatchedOptional⟩] } := by
    rw [processPropTail, h3]
  rw [processProp]
  simp only []
  rw [show mapGet rm (normalizeFieldName sk) = none from h1]
  simp only []
  rw [synonymLookup] at h2
  cases hg : guessConceptForSchemaKey sk with
  | some concept =>
    simp only []
    rw [hg] at h2
    simp only [] at h2
    cases ht : mapGet globalConceptSynonyms concept with
    | some candidates =>
      simp only []
      rw [ht] at h2
      simp only [] at h2
      rw [h2]
      exact htail
    | none => exact htail
  | none => exact htail

theorem propPhase_foldl_get_frame (rm : List (String × (String × Value)))
    (re : List (String × Value)) (req : List String)
    (l : List (String × PropSchema)) (acc : NormResult) (k : String)
    (hl : ∀ q ∈ l, q.1 ≠ k) :
    mapGet ((l.foldl (processProp rm re req) acc)).normalized k = mapGet acc.normalized k := by
  induction l generalizing acc with
  | nil => rfl
  | cons p rest ih =>
    rw [List.foldl_cons]
    rw [ih _ (fun q hq => hl q (List.mem_cons_of_mem p hq))]
    exact processProp_get_frame rm re req acc p k
      (fun hh => hl p (List.mem_cons_self p rest) hh.symm)

theorem propPhase_foldl_logs_mono (rm : List (String × (String × Value)))
    (re : List (String × Value)) (req : List String)
    (l : List (String × PropSchema)) (acc : NormResult) (en : LogEntry)
    (hen : en ∈ acc.logs) :
    en ∈ ((l.foldl (processProp rm re req) acc)).logs := by
  induction l generalizing acc with
  | nil => exact hen
  | cons p rest ih =>
    rw [List.foldl_cons]
    obtain ⟨e, he, _⟩ := processProp_logs_shape rm re req acc p
    exact ih _ (by rw [he]; exact List.mem_append_left _ hen)

theorem propPhase_logs_no_pt (rm : List (String × (String × Value)))
    (re : List (String × Value)) (req : List String)
    (props : List (String × PropSchema)) :
    ∀ en ∈ (propPhase rm re req props).logs, en.reason ≠ .passthroughExtra := by
  suffices h : ∀ (l : List (String × PropSchema)) (acc : NormResult),
      (∀ en ∈ acc.logs, en.reason ≠ .passthroughExtra) →
      ∀ en ∈ ((l.foldl (processProp rm re req) acc)).logs,
        en.reason ≠ .passthroughExtra by
    exact h props ⟨[], []⟩ (fun en hen => absurd hen (List.not_mem_nil en))
  intro l
  induction l with
  | nil => intro acc hacc; exact hacc
  | cons p rest ih =>
    intro acc hacc
    rw [List.foldl_cons]
    refine ih _ ?_
    obtain ⟨e, he, hre⟩ := processProp_logs_shape rm re req acc p
    intro en hen
    rw [he] at hen
    rcases List.mem_append.mp hen with hin | hin
    · exact hacc en hin
    · rw [List.mem_singleton.mp hin]; exact hre

/-! ## Lemmas about the line splitter and the stream readers -/

theorem splitChar_ne_nil (sep : Char) (cs : List Char) : splitChar sep cs ≠ [] := by
  cases cs with
  | nil => simp [splitChar]
  | cons c rest =>
    simp only [splitChar]
    by_cases h : c = sep
    · rw [if_pos h]; simp
    · rw [if_neg h]
      cases splitChar sep rest <;> simp

theorem consHead_ne_nil (pre : List Char) (l : List (List Char)) : consHead pre l ≠ [] := by
  cases l <;> simp [consHead]

theorem splitChar_no_sep (sep : Char) (cs : List Char) :
    ∀ piece ∈ splitChar sep cs, sep ∉ piece := by
  induction cs with
  | nil =>
    intro piece hp
    have hpe : piece = [] := List.mem_singleton.mp hp
    rw [hpe]
    exact List.not_mem_nil sep
  | cons c rest ih =>
    intro piece hp
    simp only [splitChar] at hp
    by_cases h : c = sep
    · rw [if_pos h] at hp
      rcases List.mem_cons.mp hp with he | hin
      · rw [he]; exact List.not_mem_nil sep
      · exact ih piece hin
    · rw [if_neg h] at hp
      cases hr : splitChar sep rest with
      | nil => exact absurd hr (splitChar_ne_nil sep rest)
      | cons hd tl =>
        rw [hr] at hp
        rcases List.mem_cons.mp hp with he | hin
        · rw [he]
          intro hmem
          rcases List.mem_cons.mp hmem with hc | hc
          · exact h hc.symm
          · exact ih hd (by rw [hr]; exact List.mem_cons_self hd tl) hc
        · exact ih piece (by rw [hr]; exact List.mem_cons_of_mem hd hin)

theorem getLastD_cons_cons (x y : List Char) (t : List (List Char)) :
    (x :: y :: t).getLastD [] = (y :: t).getLastD [] := by
  rw [List.getLastD_eq_getLast? _ _, List.getLastD_eq_getLast? _ _, List.getLast?_cons_cons]

theorem splitChar_of_no_sep (sep : Char) (cs : List Char) (h : sep ∉ cs) :
    splitChar sep cs = [cs] := by
  induction cs with
  | nil => rfl
  | cons c rest ih =>
    have hc : ¬ c = sep := fun hc => h (hc ▸ List.mem_cons_self c rest)
    simp only [splitChar, if_neg hc, ih (fun hm => h (List.mem_cons_of_mem c hm))]

theorem consHead_nil_id (l : List (List Char)) (hl : l ≠ []) : consHead [] l = l := by
  cases l with
  | nil => exact absurd rfl hl
  | cons h t => simp [consHead]

theorem splitChar_append (sep : Char) (a b : List Char) :
    splitChar sep (a ++ b) =
      (splitChar sep a).dropLast ++
        consHead ((splitChar sep a).getLastD []) (splitChar sep b) := by
  induction a with
  | nil =>
    rw [List.nil_append]
    show splitChar sep b = ([[]] : List (List Char)).dropLast ++
      consHead (([[]] : List (List Char)).getLastD []) (splitChar sep b)
    rw [show ([[]] : List (List Char)).dropLast = [] from rfl,
      show ([[]] : List (List Char)).getLastD [] = [] by rfl,
      List.nil_append, consHead_nil_id _ (splitChar_ne_nil sep b)]
  | cons c a' ih =>
    rw [List.cons_append]
    simp only [splitChar, ih]
    by_cases h : c = sep
    · simp only [if_pos h]
      cases hs : splitChar sep a' with
      | nil => exact absurd hs (splitChar_ne_nil sep a')
      | cons x t => rfl
    · simp only [if_neg h]
      cases hs : splitChar sep a' with
      | nil => exact absurd hs (splitChar_ne_nil sep a')
      | cons x t =>
        cases t with
        | nil =>
          cases hb : splitChar sep b with
          | nil => exact absurd hb (splitChar_ne_nil sep b)
          | cons hb' tb => rfl
        | cons y t' => rfl

theorem getLastD_append_right (a b : List (List Char)) (hb : b ≠ []) :
    (a ++ b).getLastD [] = b.getLastD [] := by
  induction a with
  | nil => rfl
  | cons x a' ih =>
    rw [List.cons_append]
    cases hab : a' ++ b with
    | nil => exact absurd (List.append_eq_nil.mp hab).2 hb
    | cons y t =>
      rw [getLastD_cons_cons, ← hab, ih]

theorem dropLast_append_right (a b : List (List Char)) (hb : b ≠ []) :
    (a ++ b).dropLast = a ++ b.dropLast := by
  induction a with
  | nil => rfl
  | cons x a' ih =>
    rw [List.cons_append]
    cases hab : a' ++ b with
    | nil => exact absurd (List.append_eq_nil.mp hab).2 hb
    | cons y t =>
      rw [List.dropLast_cons₂, ← hab, ih, List.cons_append]

/-- Chunk-boundary invariance at the line level: running the read loop
over any chunk sequence leaves the buffer equal to the (incomplete)
last segment of the split of all text read so far, and the running
parse state equal to the fold over all complete lines of that text. -/
theorem sseRun_foldl_spec (parse : String → Option Value) (chunks : List (List Char))
    (st : SseState) (hb : '\n' ∉ st.buffer) :
    chunks.foldl (sseStep parse) st =
      ⟨(splitChar '\n' (st.buffer ++ chunks.flatten)).getLastD [],
       ((splitChar '\n' (st.buffer ++ chunks.flatten)).dropLast).foldl
         (processLine parse) st.lastJSON⟩ := by
  induction chunks generalizing st with
  | nil =>
    rw [List.foldl_nil, List.flatten_nil, List.append_nil, splitChar_of_no_sep _ _ hb]
    rfl
  | cons c rest ih =>
    rw [List.foldl_cons]
    have hstep : sseStep parse st c =
        ⟨(splitChar '\n' (st.buffer ++ c)).getLastD [],
         ((splitChar '\n' (st.buffer ++ c)).dropLast).foldl (processLine parse) st.lastJSON⟩ := by
      rw [sseStep]
    have hnb : '\n' ∉ (splitChar '\n' (st.buffer ++ c)).getLastD [] := by
      cases hs : splitChar '\n' (st.buffer ++ c) with
      | nil => exact absurd hs (splitChar_ne_nil _ _)
      | cons x t =>
        have hmem : (x :: t).getLastD [] ∈ x :: t := by
          rw [List.getLastD_eq_getLast? _ _]
          have hoe := getLast?_cons_orElse x t
          cases hlast : t.getLast? with
          | none =>
            rw [hlast, orElseO_none] at hoe
            rw [hoe, Option.getD_some]
            exact List.mem_of_mem_getLast? hoe
          | some y =>
            rw [hlast, orElseO_some] at hoe
            rw [hoe, Option.getD_some]
            exact List.mem_of_mem_getLast? hoe
        exact splitChar_no_sep '\n' (st.buffer ++ c) _ (hs ▸ hmem)
    rw [hstep, ih _ hnb]
    have hsplit : splitChar '\n'
        ((splitChar '\n' (st.buffer ++ c)).getLastD [] ++ rest.flatten) =
        consHead ((splitChar '\n' (st.buffer ++ c)).getLastD [])
          (splitChar '\n' rest.flatten) := by
      rw [splitChar_append, splitChar_of_no_sep _ _ hnb]
      rfl
    have hwhole : splitChar '\n' (st.buffer ++ (c :: rest).flatten) =
        (splitChar '\n' (st.buffer ++ c)).dropLast ++
          consHead ((splitChar '\n' (st.buffer ++ c)).getLastD [])
            (splitChar '\n' rest.flatten) := by
      rw [List.flatten_cons, ← List.append_assoc, splitChar_append]
    rw [hsplit, hwhole]
    have hch := consHead_ne_nil ((splitChar '\n' (st.buffer ++ c)).getLastD [])
      (splitChar '\n' rest.flatten)
    rw [getLastD_append_right _ _ hch, dropLast_append_right _ _ hch, List.foldl_append]

/-- Folding the line processor over lines none of whose data lines
parses leaves the parse state at `none`. -/
theorem foldl_processLine_none (parse : String → Option Value)
    (lines : List (List Char))
    (h : ∀ line ∈ lines, ("data:".data).isPrefixOf line →
      parse (String.mk (listTrim (line.drop 5))) = none) :
    lines.foldl (processLine parse) none = none := by
  induction lines with
  | nil => rfl
  | cons line rest ih =>
    rw [List.foldl_cons]
    have hstep : processLine parse none line = none := by
      by_cases hp : ("data:".data).isPrefixOf line
      · simp only [processLine, if_pos hp,
          h line (List.mem_cons_self line rest) hp]
      · simp only [processLine, if_neg hp]
    rw [hstep]
    exact ih (fun l hl hpl => h l (List.mem_cons_of_mem line hl) hpl)

/-- On a unique-key pending list, the probe finds exactly the pending
entry with the given id. -/
theorem find?_key_of_mem_nodup {α : Type} (pending : List (String × α)) (s : String)
    (slot : α) (hnd : (pending.map Prod.fst).Nodup) (hm : (s, slot) ∈ pending) :
    pending.find? (fun e => e.1 == s) = some (s, slot) := by
  induction pending with
  | nil => cases hm
  | cons e rest ih =>
    rcases List.mem_cons.mp hm with he | hin
    · rw [← he]; simp [List.find?]
    · have hne : e.1 ≠ s := by
        intro hh
        have hmm : s ∈ rest.map Prod.fst := List.mem_map_of_mem Prod.fst hin
        exact (List.nodup_cons.mp hnd).1 (hh ▸ hmm)
      simp only [List.find?, show (e.1 == s) = false by simpa using hne]
      exact ih (List.nodup_cons.mp hnd).2 hin

/-! ## Claims -/

/-- C2 (corrected): the raw-argument lookup built by
`normalizeMCPArguments` binds every normalized form to the *last*
occurring raw key and its value (JS `Map.set` overwrites), so a direct
match on a duplicated form resolves to the last occurrence's value —
not the first, as claimed.  The second conjunct shows the consequence
on the full normalizer: schema property `username` receives `"b"`, the
value of the second raw key `username`, not `"a"` from the first raw
key `user_name`. -/
theorem c2_last_occurrence_wins :
    (∀ (rawEntries : List (String × Value)) (f : String),
      mapGet (buildRawMap rawEntries) f =
        (rawEntries.filter (fun e => normalizeFieldName e.1 == f)).getLast?) ∧
    (normalizeMCPArguments
        ⟨"t", some ⟨some [("username", ⟨none⟩)], none⟩, none⟩
        (some [("user_name", .str "a"), ("username", .str "b")])).normalized =
      [("username", .str "b"), ("user_name", .str "a")] :=
  ⟨buildRawMap_get, by decide⟩

/-- C2 counterexample: with two raw keys of normalized form `username`,
the direct match resolves to the *second* occurrence's value `"b"`,
refuting "first occurrence wins". -/
theorem c2_counterexample :
    mapGet (normalizeMCPArguments
        ⟨"t", some ⟨some [("username", ⟨none⟩)], none⟩, none⟩
        (some [("user_name", .str "a"), ("username", .str "b")])).normalized "username" =
      some (.str "b") ∧ (Value.str "b") ≠ .str "a" := by decide

/-- C3 (code bug): the part_001 reader decodes each chunk with a
flushing `TextDecoder.decode` (no `{stream: true}`), so a read boundary
inside the two-byte encoding of `é` turns the character into two
replacement characters: the split read parses `"��"`, while
the same bytes in a single read parse `"é"`.  The part_002 copy of the
loop passes `{stream: true}` and does not have this defect. -/
theorem c3_split_read_divergence :
    sseReadBytesP1 jsonLiteParse [c3Chunk1, c3Chunk2] ≠
      sseReadBytesP1 jsonLiteParse [c3Chunk1 ++ c3Chunk2] ∧
    sseReadBytesP1 jsonLiteParse [c3Chunk1 ++ c3Chunk2] = .str "é" := by decide

/-- C4 (corrected): `normalizeSchema` is total, and: a falsy input
returns the empty object `{}` (not a full empty object schema); an
input already shaped `{type:"object", properties:…}` with truthy
properties is returned as-is; an array of field descriptors is
converted with `type` defaulting to `"string"` and `required`
accumulated (and included only when non-empty); every *other* input —
non-objects, empty objects and unrecognized object shapes included —
is returned unchanged rather than falling to an empty-schema case. -/
theorem c4_normalizeSchema_cases :
    (∀ v : Value, v.truthy = false → normalizeSchema v = .obj []) ∧
    (∀ v : Value, v.truthy = true →
      v.getField "type" = some (.str "object") →
      truthyOpt (v.getField "properties") = true →
      normalizeSchema v = v) ∧
    (∀ fields : List Value,
      normalizeSchema (.arr fields) =
        .obj ([("type", .str "object"),
               ("properties", .obj (buildFieldSchema fields).1)] ++
          (if (buildFieldSchema fields).2.length > 0 then
            [("required", .arr (buildFieldSchema fields).2)] else []))) ∧
    (∀ v : Value, v.truthy = true →
      ((v.getField "type" = some (.str "object") ∧
        truthyOpt (v.getField "properties") = true) → False) →
      (∀ fields, v ≠ .arr fields) → normalizeSchema v = v) := by
  refine ⟨fun v h => ?_, fun v ht h1 h2 => ?_, fun fields => rfl, fun v ht hno hnarr => ?_⟩
  · rw [normalizeSchema, if_pos (by rw [h]; exact Bool.false_ne_true)]
    intro fields heq
    rw [heq] at h
    exact Bool.noConfusion (show true = false from h)
  · rw [normalizeSchema, if_neg (not_not_intro ht), if_pos (by rw [h1, h2]; simp)]
    intro fields heq
    rw [heq] at h1
    exact Option.noConfusion h1
  · rw [normalizeSchema, if_neg (not_not_intro ht),
      if_neg (fun hb => by
        simp only [Bool.and_eq_true, decide_eq_true_eq] at hb
        exact hno hb)]
    exact fun fields heq => hnarr fields heq

/-- C4 witness: the falsy-input case applied at `null`. -/
theorem c4_normalizeSchema_cases_witness :
    normalizeSchema .null = .obj [] :=
  c4_normalizeSchema_cases.1 .null rfl

/-- C4 counterexample: the string input `"hello"` is not an object, so
the claim prescribes the empty object schema; the code returns the
string unchanged. -/
theorem c4_counterexample :
    normalizeSchema (.str "hello") = .str "hello" ∧
    isEmptyObjectSchema (normalizeSchema (.str "hello")) = false := by decide

/-- C5 (confirmed): on the multi-step identifier with the doubly-nested
payload, both unwrap variants return exactly
`{results:[1,2], memory:{a:1}, time_info:{t:5}}` (field order as in
each source; `session`, absent upstream, is omitted); for any other
tool name, or any payload whose `data.data.results` read is undefined,
the payload (`result` if present and non-nullish, else the document) is
returned unchanged. -/
theorem c5_unwrap_spec :
    (unwrapP1 "RUBE_MULTI_EXECUTE_TOOL" multiExecPayload =
      .obj [("results", .arr [.num 1, .num 2]), ("time_info", .obj [("t", .num 5)]),
            ("memory", .obj [("a", .num 1)])]) ∧
    (unwrapP3 "RUBE_MULTI_EXECUTE_TOOL" multiExecPayload =
      .obj [("results", .arr [.num 1, .num 2]), ("memory", .obj [("a", .num 1)]),
            ("time_info", .obj [("t", .num 5)])]) ∧
    (∀ (toolName : String) (json : Value), toolName ≠ "RUBE_MULTI_EXECUTE_TOOL" →
      unwrapP1 toolName json = payloadOf json ∧ unwrapP3 toolName json = payloadOf json) ∧
    (∀ (toolName : String) (json : Value),
      (payloadOf json).dig ["data", "data", "results"] = none →
      unwrapP1 toolName json = payloadOf json ∧ unwrapP3 toolName json = payloadOf json) := by
  refine ⟨by decide, by decide, fun t j h => ?_, fun t j h => ?_⟩
  · have hb : (t == "RUBE_MULTI_EXECUTE_TOOL") = false := by simpa using h
    constructor <;> simp [unwrapP1, unwrapP3, hb]
  · constructor <;> simp [unwrapP1, unwrapP3, h, truthyOpt]

/-- C5 witness: the unchanged-payload case applied at a concrete other
tool name. -/
theorem c5_unwrap_spec_witness :
    unwrapP1 "OTHER_TOOL" (.num 3) = payloadOf (.num 3) :=
  (c5_unwrap_spec.2.2.1 "OTHER_TOOL" (.num 3) (by decide)).1

/-- C7 (corrected): in the execute route's stream reader, a stream none
of whose `data:` lines parses (in particular one with no `data:` lines)
yields the empty object rather than an error; but the cited tools-list
reader of part_004 instead answers a parse-failure error in that case
(see the counterexample). -/
theorem c7_empty_stream_result (parse : String → Option Value)
    (chunks : List (List Char))
    (h : ∀ line ∈ splitChar '\n' chunks.flatten, ("data:".data).isPrefixOf line →
      parse (String.mk (listTrim (line.drop 5))) = none) :
    sseReadP1 parse chunks = .obj [] := by
  have hrun := sseRun_foldl_spec parse chunks ⟨[], none⟩ (List.not_mem_nil _)
  rw [sseReadP1, sseRun, hrun]
  simp only [List.nil_append]
  rw [foldl_processLine_none parse _
    (fun l hl hp => h l (List.dropLast_subset _ hl) hp)]

/-- C7 witness: a stream whose only data line is unparseable yields
`{}`. -/
theorem c7_empty_stream_result_witness :
    sseReadP1 (fun _ => none) ["data: oops\n".data] = .obj [] :=
  c7_empty_stream_result (fun _ => none) ["data: oops\n".data] (fun _ _ _ => rfl)

/-- C7 counterexample: the part_004 tools-list stream path, given a
stream with no data lines, answers the parse-failure error — not the
empty object the claim states for every stream-reading path it cites. -/
theorem c7_counterexample :
    receiveToolsP4 jsonLiteParse
      { ok := true, status := 200, kind := .sse, chunks := ["hello\n".data],
        jsonBody := none } = .sseParseError ∧
    HandlerOutcome.sseParseError ≠ .ok (.obj []) := by decide

/-- C8 (corrected): the execute handler (part_001) parses the body of
every recognized content kind first and then answers the non-success
status as a failure carrying the status code and that body; the
tools-list handler (part_004) does so for JSON replies, and for stream
replies only when some data line parsed truthy — a non-success stream
reply with nothing parsed is answered as a parse failure without the
status (see the counterexample). -/
theorem c8_status_error_carries_body :
    (∀ (parse : String → Option Value) (r : MCPResponse),
      r.kind ≠ .other → r.ok = false →
      receiveP1 parse r = .httpError r.status (parsedBodyP1 parse r)) ∧
    (∀ (parse : String → Option Value) (r : MCPResponse),
      r.kind = .json → r.ok = false →
      receiveToolsP4 parse r = .httpError r.status (parsedBodyP1 parse r)) ∧
    (∀ (parse : String → Option Value) (r : MCPResponse) (v : Value),
      r.kind = .sse → r.ok = false →
      (sseRun parse r.chunks).lastJSON = some v → v.truthy = true →
      receiveToolsP4 parse r = .httpError r.status v) := by
  refine ⟨fun parse r hk hok => ?_, fun parse r hk hok => ?_,
    fun parse r v hk hok hlast ht => ?_⟩
  · obtain ⟨ok, status, kind, chunks, jsonBody⟩ := r
    cases kind with
    | sse => simp [receiveP1, parsedBodyP1, hok] at hok ⊢; simp [hok]
    | json => simp [receiveP1, parsedBodyP1, hok] at hok ⊢; simp [hok]
    | other => exact absurd rfl hk
  · obtain ⟨ok, status, kind, chunks, jsonBody⟩ := r
    cases kind with
    | sse => exact absurd hk (by simp)
    | json => simp only at hok; subst hok; simp [receiveToolsP4, parsedBodyP1]
    | other => exact absurd hk (by simp)
  · obtain ⟨ok, status, kind, chunks, jsonBody⟩ := r
    cases kind with
    | sse =>
      simp only at hok hlast
      subst hok
      simp [receiveToolsP4, hlast, ht]
    | json => exact absurd hk (by simp)
    | other => exact absurd hk (by simp)

/-- C8 witness: a non-success JSON reply is answered with the status
and the parsed body. -/
theorem c8_status_error_carries_body_witness :
    receiveP1 jsonLiteParse
      { ok := false, status := 404, kind := .json, chunks := [],
        jsonBody := some (.str "gone") } =
      .httpError 404 (parsedBodyP1 jsonLiteParse
        { ok := false, status := 404, kind := .json, chunks := [],
          jsonBody := some (.str "gone") }) :=
  c8_status_error_carries_body.1 jsonLiteParse
    { ok := false, status := 404, kind := .json, chunks := [],
      jsonBody := some (.str "gone") } (by decide) rfl

/-- C8 counterexample: a non-success event-stream reply with nothing
parsed makes the part_004 handler answer the parse-failure error, which
does not carry the status code. -/
theorem c8_counterexample :
    receiveToolsP4 jsonLiteParse
      { ok := false, status := 500, kind := .sse, chunks := [], jsonBody := none } =
      .sseParseError ∧
    carriesStatus (receiveToolsP4 jsonLiteParse
      { ok := false, status := 500, kind := .sse, chunks := [], jsonBody := none }) =
      false := by decide

/-- C9 (confirmed): the inbound listener resolves a pending entry whose
id matches the message id and deletes it; a message with an absent id,
a falsy id, a non-string id, or an id matching no pending entry leaves
the pending map unchanged and resolves nothing. -/
theorem c9_pending_dispatch :
    (∀ (pending : List (String × Nat)) (data : Value) (s : String) (slot : Nat),
      (pending.map Prod.fst).Nodup →
      data.getField "id" = some (.str s) → s ≠ "" → (s, slot) ∈ pending →
      handleMessage pending data =
        (pending.filter (fun q => ¬ (q.1 == s)), some (slot, data))) ∧
    (∀ (pending : List (String × Nat)) (data : Value),
      data.getField "id" = none → handleMessage pending data = (pending, none)) ∧
    (∀ (pending : List (String × Nat)) (data : Value) (idv : Value),
      data.getField "id" = some idv → idv.truthy = false →
      handleMessage pending data = (pending, none)) ∧
    (∀ (pending : List (String × Nat)) (data : Value) (s : String),
      data.getField "id" = some (.str s) → s ≠ "" →
      pending.find? (fun e => e.1 == s) = none →
      handleMessage pending data = (pending, none)) := by
  refine ⟨fun pending data s slot hnd hid hs hm => ?_,
    fun pending data hid => ?_, fun pending data idv hid ht => ?_,
    fun pending data s hid hs hfind => ?_⟩
  · have ht : (Value.str s).truthy = true := by simp [Value.truthy, hs]
    simp only [handleMessage, hid]
    rw [if_neg (not_not_intro ht)]
    simp only [find?_key_of_mem_nodup pending s slot hnd hm]
  · simp only [handleMessage, hid]
  · simp only [handleMessage, hid]
    rw [if_pos (fun hc => Bool.false_ne_true (ht ▸ hc))]
  · have ht : (Value.str s).truthy = true := by simp [Value.truthy, hs]
    simp only [handleMessage, hid]
    rw [if_neg (not_not_intro ht)]
    simp only [hfind]

/-- C9 witness: a matching inbound message resolves and removes the
pending entry. -/
theorem c9_pending_dispatch_witness :
    handleMessage [("1", 7)] (.obj [("id", .str "1"), ("result", .str "pong")]) =
      ([("1", 7)].filter (fun q => ¬ (q.1 == "1")),
        some (7, .obj [("id", .str "1"), ("result", .str "pong")])) :=
  c9_pending_dispatch.1 [("1", 7)] (.obj [("id", .str "1"), ("result", .str "pong")])
    "1" 7 (by decide) (by decide) (by decide) (by decide)

/-- C10 (confirmed): `null`/`undefined`/non-object raw arguments yield
an empty normalized map and exactly the single log entry
`{targetKey:"*", reason:"No arguments provided"}`; with valid raw
arguments but no schema (or a schema without a properties object), the
raw arguments are returned as a shallow copy with exactly the single
log entry `{targetKey:"*", reason:"No schema; passthrough"}`. -/
theorem c10_degenerate_inputs :
    (∀ tool : MCPToolDefinition,
      normalizeMCPArguments tool none =
        { normalized := [], logs := [⟨"*", none, .noArguments⟩] }) ∧
    (∀ (tool : MCPToolDefinition) (rawEntries : List (String × Value)),
      tool.effectiveSchema = none →
      normalizeMCPArguments tool (some rawEntries) =
        { normalized := rawEntries, logs := [⟨"*", none, .noSchema⟩] }) ∧
    (∀ (tool : MCPToolDefinition) (rawEntries : List (String × Value)) (s : JSONSchema),
      tool.effectiveSchema = some s → s.properties = none →
      normalizeMCPArguments tool (some rawEntries) =
        { normalized := rawEntries, logs := [⟨"*", none, .noSchema⟩] }) := by
  refine ⟨fun tool => rfl, fun tool re h => ?_, fun tool re s hs hp => ?_⟩
  · simp only [normalizeMCPArguments, h]
  · simp only [normalizeMCPArguments, hs, hp]

/-- C10 witness: the no-schema passthrough at a concrete tool. -/
theorem c10_degenerate_inputs_witness :
    normalizeMCPArguments ⟨"t", none, none⟩ (some [("a", .num 1)]) =
      { normalized := [("a", .num 1)], logs := [⟨"*", none, .noSchema⟩] } :=
  c10_degenerate_inputs.2.1 ⟨"t", none, none⟩ [("a", .num 1)] rfl

/-- C1 (corrected): after the property loop, a raw entry is copied into
the output (unmodified, with a passthrough-extra log) precisely when
its *original key* is not among the keys the property loop wrote —
whether or not its value was consumed by a match step is irrelevant; a
raw key whose name is itself an assigned schema property is never
copied again. -/
theorem c1_extras_policy (name : String) (props : List (String × PropSchema))
    (reqOpt : Option (List String)) (rawEntries : List (String × Value))
    (hnd : (rawEntries.map Prod.fst).Nodup) (k : String) (v : Value)
    (hkv : (k, v) ∈ rawEntries) :
    let P := propPhase (buildRawMap rawEntries) rawEntries (reqOpt.getD []) props
    let F := normalizeMCPArguments ⟨name, some ⟨some props, reqOpt⟩, none⟩ (some rawEntries)
    (hasKey P.normalized k = false →
      mapGet F.normalized k = some v ∧
        (⟨k, some k, .passthroughExtra⟩ : LogEntry) ∈ F.logs) ∧
    (hasKey P.normalized k = true →
      (⟨k, some k, .passthroughExtra⟩ : LogEntry) ∉ F.logs) := by
  intro P F
  have hF : F = keepExtras rawEntries P := rfl
  constructor
  · intro hk
    rw [hF]
    exact keepExtras_adds rawEntries P k v hkv hnd hk
  · intro hk
    rw [hF]
    exact keepExtras_no_pt_log rawEntries P k hk
      (fun hmem => propPhase_logs_no_pt _ _ _ _ _ hmem rfl)

/-- C1 witness: with schema property `recipient_email` and the single
raw key `to`, the raw key is not a property-phase output key, so it is
copied through with a passthrough log. -/
theorem c1_extras_policy_witness :
    mapGet (normalizeMCPArguments
        ⟨"t", some ⟨some [("recipient_email", ⟨none⟩)], none⟩, none⟩
        (some [("to", .str "a@b.com")])).normalized "to" = some (.str "a@b.com") ∧
    (⟨"to", some "to", .passthroughExtra⟩ : LogEntry) ∈
      (normalizeMCPArguments
        ⟨"t", some ⟨some [("recipient_email", ⟨none⟩)], none⟩, none⟩
        (some [("to", .str "a@b.com")])).logs :=
  (c1_extras_policy "t" [("recipient_email", ⟨none⟩)] none [("to", .str "a@b.com")]
    (by decide) "to" (.str "a@b.com") (by decide)).1 (by decide)

/-- C1 counterexample: the raw key `to` is consumed by the synonym step
(it fills `recipient_email`), yet it is additionally copied into the
output under its own key with a passthrough-extra log — the claim says
a consumed raw key is not copied. -/
theorem c1_counterexample :
    (⟨"recipient_email", some "to", .synonymMatch "recipient_email"⟩ : LogEntry) ∈
      (normalizeMCPArguments
        ⟨"t", some ⟨some [("recipient_email", ⟨none⟩)], none⟩, none⟩
        (some [("to", .str "a@b.com")])).logs ∧
    mapGet (normalizeMCPArguments
        ⟨"t", some ⟨some [("recipient_email", ⟨none⟩)], none⟩, none⟩
        (some [("to", .str "a@b.com")])).normalized "to" = some (.str "a@b.com") ∧
    (⟨"to", some "to", .passthroughExtra⟩ : LogEntry) ∈
      (normalizeMCPArguments
        ⟨"t", some ⟨some [("recipient_email", ⟨none⟩)], none⟩, none⟩
        (some [("to", .str "a@b.com")])).logs := by decide

/-- C6 (confirmed): a schema property that is matched by none of the
direct, synonym, and fuzzy strategies is bound to explicit `null` with
a missing-required log when it is in the required list, and is absent
from the output with an unmatched-optional log otherwise. -/
theorem c6_unmatched_property (name : String) (props : List (String × PropSchema))
    (requiredL : List String) (rawEntries : List (String × Value))
    (hndp : (props.map Prod.fst).Nodup) (p : String) (ps : PropSchema)
    (hp : (p, ps) ∈ props)
    (h1 : directLookup (buildRawMap rawEntries) p = none)
    (h2 : synonymLookup (buildRawMap rawEntries) p = none)
    (h3 : fuzzyScan p (buildRawMap rawEntries) = none) :
    let F := normalizeMCPArguments ⟨name, some ⟨some props, some requiredL⟩, none⟩
      (some rawEntries)
    (requiredL.contains p = true →
      mapGet F.normalized p = some .null ∧
        (⟨p, none, .missingRequired⟩ : LogEntry) ∈ F.logs) ∧
    (requiredL.contains p = false →
      mapGet F.normalized p = none ∧
        (⟨p, none, .unmatchedOptional⟩ : LogEntry) ∈ F.logs) := by
  intro F
  obtain ⟨pre, post, hsplit⟩ := List.append_of_mem hp
  subst hsplit
  have hmap : ((pre ++ (p, ps) :: post).map Prod.fst).Nodup := hndp
  rw [List.map_append, List.map_cons] at hmap
  obtain ⟨hnd1, hnd2, hdisj⟩ := List.nodup_append.mp hmap
  have hnpre : ∀ q ∈ pre, q.1 ≠ p := by
    intro q hq hh
    have hm1 : q.1 ∈ pre.map Prod.fst := List.mem_map_of_mem Prod.fst hq
    rw [hh] at hm1
    exact hdisj hm1 (List.mem_cons_self p _)
  have hnpost : ∀ q ∈ post, q.1 ≠ p := by
    intro q hq hh
    have hm1 : q.1 ∈ post.map Prod.fst := List.mem_map_of_mem Prod.fst hq
    rw [hh] at hm1
    exact (List.nodup_cons.mp hnd2).1 hm1
  set rm := buildRawMap rawEntries with hrm
  have hF : F = keepExtras rawEntries
      (propPhase rm rawEntries requiredL (pre ++ (p, ps) :: post)) := rfl
  have hPP : propPhase rm rawEntries requiredL (pre ++ (p, ps) :: post) =
      post.foldl (processProp rm rawEntries requiredL)
        (processProp rm rawEntries requiredL
          (propPhase rm rawEntries requiredL pre) (p, ps)) := by
    rw [propPhase, List.foldl_append, List.foldl_cons]
    rfl
  have hpre : mapGet (propPhase rm rawEntries requiredL pre).normalized p = none := by
    rw [propPhase, propPhase_foldl_get_frame rm rawEntries requiredL pre ⟨[], []⟩ p hnpre]
    rfl
  have hstep := processProp_noMatch rm rawEntries requiredL
    (propPhase rm rawEntries requiredL pre) p ps h1 h2 h3
  have hnotraw : ∀ v, (p, v) ∉ rawEntries := by
    intro v hv
    have hfmem : (p, v) ∈ rawEntries.filter
        (fun e => normalizeFieldName e.1 == normalizeFieldName p) :=
      List.mem_filter.mpr ⟨hv, by simp⟩
    have hne : rawEntries.filter
        (fun e => normalizeFieldName e.1 == normalizeFieldName p) ≠ [] :=
      List.ne_nil_of_mem hfmem
    have hd : mapGet rm (normalizeFieldName p) ≠ none := by
      rw [hrm, buildRawMap_get, List.getLast?_eq_getLast_of_ne_nil hne]
      exact Option.noConfusion
    exact hd h1
  constructor
  · intro hreq
    rw [if_pos hreq] at hstep
    have hval : mapGet (processProp rm rawEntries requiredL
        (propPhase rm rawEntries requiredL pre) (p, ps)).normalized p = some .null := by
      rw [hstep]
      simp only []
      rw [mapGet_mapSet, if_pos rfl]
    have hval2 : mapGet (propPhase rm rawEntries requiredL
        (pre ++ (p, ps) :: post)).normalized p = some .null := by
      rw [hPP, propPhase_foldl_get_frame rm rawEntries requiredL post _ p hnpost, hval]
    have hkey : hasKey (propPhase rm rawEntries requiredL
        (pre ++ (p, ps) :: post)).normalized p = true := by
      rw [hasKey_iff_isSome, hval2]
      rfl
    refine ⟨?_, ?_⟩
    · rw [hF, (keepExtras_hasKey_mono rawEntries _ p hkey).2, hval2]
    · have hlog1 : (⟨p, none, .missingRequired⟩ : LogEntry) ∈
          (processProp rm rawEntries requiredL
            (propPhase rm rawEntries requiredL pre) (p, ps)).logs := by
        rw [hstep]
        exact List.mem_append_right _ (List.mem_singleton_self _)
      have hlog2 : (⟨p, none, .missingRequired⟩ : LogEntry) ∈
          (propPhase rm rawEntries requiredL (pre ++ (p, ps) :: post)).logs := by
        rw [hPP]
        exact propPhase_foldl_logs_mono rm rawEntries requiredL post _ _ hlog1
      rw [hF]
      exact keepExtras_logs_mono rawEntries _ _ hlog2
  · intro hreq
    rw [if_neg (fun hc => Bool.noConfusion (show false = true from hreq ▸ hc))] at hstep
    have hval : mapGet (processProp rm rawEntries requiredL
        (propPhase rm rawEntries requiredL pre) (p, ps)).normalized p = none := by
      rw [hstep]
      exact hpre
    have hval2 : mapGet (propPhase rm rawEntries requiredL
        (pre ++ (p, ps) :: post)).normalized p = none := by
      rw [hPP, propPhase_foldl_get_frame rm rawEntries requiredL post _ p hnpost, hval]
    refine ⟨?_, ?_⟩
    · rw [hF]
      exact keepExtras_get_none rawEntries _ p hval2 hnotraw
    · have hlog1 : (⟨p, none, .unmatchedOptional⟩ : LogEntry) ∈
          (processProp rm rawEntries requiredL
            (propPhase rm rawEntries requiredL pre) (p, ps)).logs := by
        rw [hstep]
        exact List.mem_append_right _ (List.mem_singleton_self _)
      have hlog2 : (⟨p, none, .unmatchedOptional⟩ : LogEntry) ∈
          (propPhase rm rawEntries requiredL (pre ++ (p, ps) :: post)).logs := by
        rw [hPP]
        exact propPhase_foldl_logs_mono rm rawEntries requiredL post _ _ hlog1
      rw [hF]
      exact keepExtras_logs_mono rawEntries _ _ hlog2

/-- C6 witness: on an empty argument object, the required property
`foo` is bound to `null` with a missing-required log. -/
theorem c6_unmatched_property_witness :
    mapGet (normalizeMCPArguments
        ⟨"t", some ⟨some [("foo", ⟨none⟩), ("bar", ⟨none⟩)], some ["foo"]⟩, none⟩
        (some [])).normalized "foo" = some .null ∧
    (⟨"foo", none, .missingRequired⟩ : LogEntry) ∈
      (normalizeMCPArguments
        ⟨"t", some ⟨some [("foo", ⟨none⟩), ("bar", ⟨none⟩)], some ["foo"]⟩, none⟩
        (some [])).logs :=
  (c6_unmatched_property "t" [("foo", ⟨none⟩), ("bar", ⟨none⟩)] ["foo"] []
    (by decide) "foo" ⟨none⟩ (by decide) (by decide) (by decide) (by decide)).1 (by decide)

end VoiceAI
